import Mathlib

/-!
Verification of the redpoule thread-pool library (`include/redpoule.hpp`,
`include/threadpool.hpp`).

The development shallowly embeds the parts of the C++ source that the
properties below are about:

* the block partition computed by `ThreadPool::parallel_for`
  (redpoule.hpp lines 96-110), as pure arithmetic on `Nat`
  (`size_t` values on the guarded path never overflow nor go negative,
  so `Nat` with truncated subtraction is faithful);
* the task queue discipline of `ThreadPool::push` and the dequeue in
  `ThreadPool::infinite_loop`, as a list-based FIFO;
* the pool's shared state (queue, per-worker busy flags, worker program
  counters) as a small-step transition system, each step one
  mutex-protected critical section of the source;
* the completion predicate of `ThreadPool::wait` and the retry loop of
  `cv.wait`;
* one iteration of `ThreadPool::infinite_loop` with a task body that may
  raise, to examine the error-handling behaviour.
-/

namespace Redpoule

/-- Mirrors `block_size` in `ThreadPool::parallel_for` (redpoule.hpp line 101):
`end - start`, computed on the path guarded by `start < end`. -/
def block_size (start stop : Nat) : Nat := stop - start

/-- Mirrors `block_start` for loop index `t` in `ThreadPool::parallel_for`
(redpoule.hpp line 102): `t * block_size / get_num_threads()`. -/
def block_start (bsize W t : Nat) : Nat := t * bsize / W

/-- Mirrors `block_end` for loop index `t` in `ThreadPool::parallel_for`
(redpoule.hpp lines 103-105):
`(t + 1) == get_num_threads() ? block_size : (t + 1) * block_size / get_num_threads()`. -/
def block_end (bsize W t : Nat) : Nat :=
  if t + 1 = W then bsize else (t + 1) * bsize / W

/-- Embeds `ThreadPool::parallel_for` (redpoule.hpp lines 96-110) as the pair of
(1) the list of `(block_start, block_end)` argument pairs bound into the
submitted tasks, in submission order, and (2) whether the trailing `wait()`
call is reached.  The early return `if (start >= end) return;` submits
nothing and skips `wait()`. -/
def parallel_for (start stop W : Nat) : List (Nat × Nat) × Bool :=
  if start ≥ stop then ([], false)
  else
    ((List.range W).map (fun t =>
      (block_start (block_size start stop) W t,
       block_end (block_size start stop) W t)),
     true)

/-- The blocks submitted by `ThreadPool::parallel_for`, in submission order. -/
def parallelForBlocks (start stop W : Nat) : List (Nat × Nat) :=
  (parallel_for start stop W).1

/-- Ceiling division on `Nat`, used to state the rounding bound of the
partition: `ceilDiv a b = ⌈a / b⌉` for `b > 0`. -/
def ceilDiv (a b : Nat) : Nat := (a + b - 1) / b

/-- The completion predicate of `ThreadPool::wait` (redpoule.hpp lines 81-84):
`_task_queue.empty() && std::none_of(_busy.begin(), _busy.end(), id)`,
evaluated on one snapshot of the state taken under `_task_queue_mutex`.
`none_of` of the identity over the busy flags is `all` of their negations. -/
def waitPredicate (task_queue : List Nat) (busy : List Bool) : Bool :=
  task_queue.isEmpty && busy.all (fun v => !v)

/-- The retry loop of `cv.wait(lock, pred)` inside `ThreadPool::wait`
(redpoule.hpp lines 82-84): given the sequence of state snapshots observed
under the mutex at successive wakeups, the wait re-evaluates the predicate at
every wakeup and returns at the first satisfying snapshot (`none` if the given
wakeup sequence never satisfies it). -/
def cvWait : List (List Nat × List Bool) → Option (List Nat × List Bool)
  | [] => none
  | s :: rest => if waitPredicate s.1 s.2 then some s else cvWait rest

/-- One operation on the task queue: `QueueOp.push t` is
`ThreadPool::push` appending task `t` at the tail (redpoule.hpp line 92,
`_task_queue.push`), `QueueOp.pop w` is worker `w` taking the head inside
`ThreadPool::infinite_loop` (redpoule.hpp lines 126-127, `_task_queue.front()`
then `_task_queue.pop()`), a no-op when the queue is empty (line 121). -/
inductive QueueOp
  | push (t : Nat)
  | pop (w : Nat)

/-- History-keeping state of the task queue: the live queue contents plus the
log of every task enqueued and every `(worker, task)` delivery, in order. -/
structure QueueState where
  task_queue : List Nat
  enqueued : List Nat
  delivered : List (Nat × Nat)

/-- Effect of one queue operation, mirroring the two critical sections of the
source: `push` appends at the tail; `pop` removes the head and records the
delivery to the popping worker, or does nothing on an empty queue. -/
def applyQueueOp (s : QueueState) : QueueOp → QueueState
  | QueueOp.push t =>
      { s with task_queue := s.task_queue ++ [t], enqueued := s.enqueued ++ [t] }
  | QueueOp.pop w =>
      match s.task_queue with
      | [] => s
      | t :: rest =>
          { s with task_queue := rest, delivered := s.delivered ++ [(w, t)] }

/-- Run a sequence of queue operations from the empty queue. -/
def runQueueOps (ops : List QueueOp) : QueueState :=
  ops.foldl applyQueueOp { task_queue := [], enqueued := [], delivered := [] }

/-- Program counter of one worker thread inside `ThreadPool::infinite_loop`
(redpoule.hpp lines 112-141): `atTop` is the top of the `while (_running)`
loop with no task in hand; `holding t` is after the dequeue critical section
(task `t` moved out of the queue, own busy flag set true, line 125-128) while
`task()` runs; `doneTask t` is after `task()` returned (line 133) but before
the final critical section that clears the busy flag and notifies. -/
inductive Phase
  | atTop
  | holding (t : Nat)
  | doneTask (t : Nat)
deriving DecidableEq

/-- Does this worker currently hold task `t` dequeued but not yet executed? -/
def holdsTask (t : Nat) : Phase → Bool
  | Phase.holding u => u == t
  | _ => false

/-- Shared state of the pool: the task queue, each worker's program counter,
each worker's `_busy` flag, the log of completed task executions and the log
of pushed tasks.  Tasks are identified by `Nat` ids (for a `parallel_for`
round, id `t` is the task of block `t`). -/
structure PoolState where
  task_queue : List Nat
  workers : List Phase
  busy : List Bool
  executed : List Nat
  pushed : List Nat

/-- One atomic step of the pool, each corresponding to one mutex-protected
critical section of the source (plus the unprotected `task()` call, whose
completion is the `run` step):

* `push`: `ThreadPool::push` appends a task (redpoule.hpp lines 88-94);
* `dequeue`: a worker at the loop top finds the queue non-empty, moves the
  head out and sets its busy flag true, all under the lock (lines 119-129);
* `idle`: a worker at the loop top finds the queue empty and sets its busy
  flag false (lines 121-124);
* `run`: the worker's `task()` call returns, completing the execution of the
  held task (line 133);
* `clearBusy`: the worker's final critical section clears its busy flag and
  calls `cv.notify_all()` (lines 136-139). -/
inductive Step : PoolState → PoolState → Prop
  | push (s : PoolState) (t : Nat) :
      Step s { s with task_queue := s.task_queue ++ [t], pushed := s.pushed ++ [t] }
  | dequeue (s : PoolState) (w t : Nat) (rest : List Nat)
      (hw : s.workers.get? w = some Phase.atTop)
      (hq : s.task_queue = t :: rest) :
      Step s { s with task_queue := rest,
                      workers := s.workers.set w (Phase.holding t),
                      busy := s.busy.set w true }
  | idle (s : PoolState) (w : Nat)
      (hw : s.workers.get? w = some Phase.atTop)
      (hq : s.task_queue = []) :
      Step s { s with busy := s.busy.set w false }
  | run (s : PoolState) (w t : Nat)
      (hw : s.workers.get? w = some (Phase.holding t)) :
      Step s { s with workers := s.workers.set w (Phase.doneTask t),
                      executed := s.executed ++ [t] }
  | clearBusy (s : PoolState) (w t : Nat)
      (hw : s.workers.get? w = some (Phase.doneTask t)) :
      Step s { s with workers := s.workers.set w Phase.atTop,
                      busy := s.busy.set w false }

/-- The pool as constructed with `n` workers (redpoule.hpp lines 60-64):
empty queue, all workers at the top of their loops, all busy flags false. -/
def initPool (n : Nat) : PoolState :=
  { task_queue := [], workers := List.replicate n Phase.atTop,
    busy := List.replicate n false, executed := [], pushed := [] }

/-- States reachable from the freshly constructed pool by pool steps. -/
inductive Reachable (n : Nat) : PoolState → Prop
  | init : Reachable n (initPool n)
  | step {s s' : PoolState} : Reachable n s → Step s s' → Reachable n s'

/-- The safety invariant of the pool state: worker and busy arrays have the
same length, any worker that is past the loop top (holding or done with a
task) has its busy flag set, and every pushed task is accounted for exactly
by its completed executions, its queue occurrences and the workers
currently holding it. -/
def PoolInv (s : PoolState) : Prop :=
  s.workers.length = s.busy.length ∧
  (∀ w ph, s.workers.get? w = some ph → ph ≠ Phase.atTop →
      s.busy.get? w = some true) ∧
  (∀ t, s.pushed.count t =
      s.executed.count t + s.task_queue.count t +
      s.workers.countP (holdsTask t))

/-- Outcome of running one task body: a task either returns normally or
raises an error. -/
inductive TaskResult
  | ok
  | thrown
deriving DecidableEq

/-- The state visible to one iteration of `ThreadPool::infinite_loop`:
the task queue (each task represented by its execution outcome), the busy
flags, and whether `cv.notify_all()` has been called in this iteration. -/
structure LoopView where
  task_queue : List TaskResult
  busy : List Bool
  notified : Bool
deriving DecidableEq

/-- One iteration of the body of `ThreadPool::infinite_loop`
(redpoule.hpp lines 117-140), for worker `thread_id`.  The source wraps
`task()` in no try/catch, so when the task raises, the iteration is exited
right there: the second component is `true` exactly when an exception escapes
the loop body, and in that case the final critical section (busy flag
cleared, `cv.notify_all()`, lines 136-139) is never reached. -/
def infinite_loop_iter (thread_id : Nat) (s : LoopView) : LoopView × Bool :=
  match s.task_queue with
  | [] => ({ s with busy := s.busy.set thread_id false }, false)
  | task :: rest =>
      let s1 : LoopView :=
        { s with task_queue := rest, busy := s.busy.set thread_id true }
      match task with
      | TaskResult.thrown => (s1, true)
      | TaskResult.ok =>
          ({ s1 with busy := s1.busy.set thread_id false, notified := true },
           false)

/-- The state read and written by `ThreadPool::push`: the `_running` flag and
the task queue. -/
structure PushView where
  running : Bool
  task_queue : List Nat
deriving DecidableEq

/-- Embeds `ThreadPool::push` (redpoule.hpp lines 88-94): takes the queue mutex and
appends the task at the tail.  The body never reads `_running`; the append is
unconditional. -/
def push (s : PushView) (task : Nat) : PushView :=
  { s with task_queue := s.task_queue ++ [task] }

/-! ## Arithmetic facts about integer division -/

theorem div_add_div_le (a b c : Nat) (hc : 0 < c) : a / c + b / c ≤ (a + b) / c := by
  rw [Nat.le_div_iff_mul_le hc, Nat.add_mul]
  have h1 : a / c * c ≤ a := Nat.div_mul_le_self a c
  have h2 : b / c * c ≤ b := Nat.div_mul_le_self b c
  omega

theorem add_div_le_succ (a b c : Nat) (hc : 0 < c) :
    (a + b) / c ≤ a / c + b / c + 1 := by
  rw [Nat.div_le_iff_le_mul_add_pred hc, Nat.mul_add, Nat.mul_add, Nat.mul_one]
  have h1 : a ≤ c * (a / c) + (c - 1) := (Nat.div_le_iff_le_mul_add_pred hc).mp le_rfl
  have h2 : b ≤ c * (b / c) + (c - 1) := (Nat.div_le_iff_le_mul_add_pred hc).mp le_rfl
  omega

theorem ceilDiv_of_dvd (a b : Nat) (hb : 0 < b) (h : b ∣ a) :
    ceilDiv a b = a / b := by
  obtain ⟨q, rfl⟩ := h
  have h1 : b * q + b - 1 = b * q + (b - 1) := by omega
  rw [ceilDiv, h1, Nat.mul_add_div hb,
    Nat.div_eq_of_lt (show b - 1 < b by omega),
    Nat.mul_div_cancel_left q hb]
  omega

theorem ceilDiv_of_not_dvd (a b : Nat) (hb : 0 < b) (h : ¬ b ∣ a) :
    ceilDiv a b = a / b + 1 := by
  have hmod : a % b ≠ 0 := fun hz => h (Nat.dvd_of_mod_eq_zero hz)
  have hdm : b * (a / b) + a % b = a := Nat.div_add_mod a b
  have hlt : a % b < b := Nat.mod_lt a hb
  set q := a / b with hq
  set r := a % b with hr
  have hexp : b * (q + 1) = b * q + b := by ring
  have h1 : a + b - 1 = b * (q + 1) + (r - 1) := by omega
  rw [ceilDiv, h1, Nat.mul_add_div hb,
    Nat.div_eq_of_lt (show r - 1 < b by omega)]

/-! ## Facts about the block partition -/

theorem parallelForBlocks_get (start stop W t : Nat) (h : start < stop) (ht : t < W) :
    (parallelForBlocks start stop W).get? t =
      some (block_start (stop - start) W t, block_end (stop - start) W t) := by
  have hns : ¬ start ≥ stop := by omega
  rw [parallelForBlocks, parallel_for, if_neg hns]
  simp only [List.get?_map, List.get?_range ht, Option.map_some', block_size]

theorem parallelForBlocks_length (start stop W : Nat) (h : start < stop) :
    (parallelForBlocks start stop W).length = W := by
  have hns : ¬ start ≥ stop := by omega
  rw [parallelForBlocks, parallel_for, if_neg hns]
  simp [List.length_map, List.length_range]

theorem block_start_mono (n W t1 t2 : Nat) (h : t1 ≤ t2) :
    block_start n W t1 ≤ block_start n W t2 :=
  Nat.div_le_div_right (Nat.mul_le_mul_right n h)

theorem block_start_le_self (n W t : Nat) (ht : t ≤ W) : block_start n W t ≤ n := by
  have h1 : t * n ≤ W * n := Nat.mul_le_mul_right n ht
  have h2 : t * n / W ≤ W * n / W := Nat.div_le_div_right h1
  rcases Nat.eq_zero_or_pos W with hW | hW
  · subst hW; simp [block_start]
  · rw [Nat.mul_div_cancel_left n hW] at h2
    exact h2

theorem block_end_le (n W t : Nat) (ht : t < W) : block_end n W t ≤ n := by
  rw [block_end]
  split
  · exact le_rfl
  · exact block_start_le_self n W (t + 1) ht

theorem block_end_le_block_start_of_lt (n W t1 t2 : Nat)
    (h12 : t1 < t2) (h2 : t2 < W) :
    block_end n W t1 ≤ block_start n W t2 := by
  have hne : t1 + 1 ≠ W := by omega
  rw [block_end, if_neg hne]
  exact block_start_mono n W (t1 + 1) t2 (by omega)

theorem block_start_le_block_end (n W t : Nat) (ht : t < W) :
    block_start n W t ≤ block_end n W t := by
  rw [block_end]
  split
  · exact block_start_le_self n W t (by omega)
  · exact block_start_mono n W t (t + 1) (by omega)

theorem block_len_mid (n W t : Nat) (hW : 0 < W) (ht : t + 1 < W) :
    block_end n W t - block_start n W t = n / W ∨
    block_end n W t - block_start n W t = n / W + 1 := by
  have hne : t + 1 ≠ W := by omega
  have hsucc : (t + 1) * n = t * n + n := by ring
  have hlo : t * n / W + n / W ≤ (t + 1) * n / W := by
    rw [hsucc]; exact div_add_div_le (t * n) n W hW
  have hhi : (t + 1) * n / W ≤ t * n / W + n / W + 1 := by
    rw [hsucc]; exact add_div_le_succ (t * n) n W hW
  simp only [block_end, if_neg hne, block_start]
  obtain ⟨x, hx⟩ : ∃ x, t * n / W = x := ⟨_, rfl⟩
  obtain ⟨y, hy⟩ : ∃ y, n / W = y := ⟨_, rfl⟩
  obtain ⟨z, hz⟩ : ∃ z, (t + 1) * n / W = z := ⟨_, rfl⟩
  rw [hx, hy, hz] at hlo hhi ⊢
  omega

theorem block_len_mid_dvd (n W t : Nat) (hW : 0 < W) (ht : t + 1 < W) (hd : W ∣ n) :
    block_end n W t - block_start n W t = n / W := by
  have hne : t + 1 ≠ W := by omega
  have hsucc : (t + 1) * n = t * n + n := by ring
  simp only [block_end, if_neg hne, block_start]
  rw [hsucc, Nat.add_div_of_dvd_left hd]
  exact Nat.add_sub_cancel_left _ _

theorem block_len_last (n W : Nat) (hW : 0 < W) :
    block_end n W (W - 1) - block_start n W (W - 1) = ceilDiv n W := by
  have hpin : W - 1 + 1 = W := by omega
  have hWn : (W - 1) * n + n = W * n := by
    have h1 : (W - 1) * n = W * n - n := Nat.sub_one_mul W n
    have h2 : n ≤ W * n := Nat.le_mul_of_pos_left n hW
    omega
  have hlo : (W - 1) * n / W + n / W ≤ n := by
    have h := div_add_div_le ((W - 1) * n) n W hW
    rw [hWn, Nat.mul_div_cancel_left n hW] at h
    exact h
  have hhi : n ≤ (W - 1) * n / W + n / W + 1 := by
    have h := add_div_le_succ ((W - 1) * n) n W hW
    rw [hWn, Nat.mul_div_cancel_left n hW] at h
    exact h
  simp only [block_end, if_pos hpin, block_start]
  rcases Classical.em (W ∣ n) with hd | hd
  · rw [ceilDiv_of_dvd n W hW hd]
    rw [Nat.mul_div_assoc (W - 1) hd]
    have hb : W * (n / W) = n := Nat.mul_div_cancel' hd
    obtain ⟨y, hy⟩ : ∃ y, n / W = y := ⟨_, rfl⟩
    rw [hy] at hb ⊢
    have h1 : (W - 1) * y = W * y - y := Nat.sub_one_mul W y
    have h2 : y ≤ W * y := Nat.le_mul_of_pos_left y hW
    obtain ⟨u, hu⟩ : ∃ u, W * y = u := ⟨_, rfl⟩
    obtain ⟨v, hv⟩ : ∃ v, (W - 1) * y = v := ⟨_, rfl⟩
    rw [hu] at hb h1 h2
    rw [hv] at h1 ⊢
    omega
  · rw [ceilDiv_of_not_dvd n W hW hd]
    have hne : (W - 1) * n / W + n / W ≠ n := by
      intro heq
      apply hd
      apply Nat.dvd_of_mod_eq_zero
      have hdm1 : W * ((W - 1) * n / W) + (W - 1) * n % W = (W - 1) * n :=
        Nat.div_add_mod ((W - 1) * n) W
      have hdm2 : W * (n / W) + n % W = n := Nat.div_add_mod n W
      have hmul : W * ((W - 1) * n / W + n / W) =
          W * ((W - 1) * n / W) + W * (n / W) := Nat.mul_add W _ _
      have hmul2 : W * ((W - 1) * n / W + n / W) = W * n := by rw [heq]
      obtain ⟨x, hx⟩ : ∃ x, (W - 1) * n / W = x := ⟨_, rfl⟩
      obtain ⟨y, hy⟩ : ∃ y, n / W = y := ⟨_, rfl⟩
      rw [hx] at hdm1 hmul hmul2
      rw [hy] at hdm2 hmul hmul2
      obtain ⟨u, hu⟩ : ∃ u, W * x = u := ⟨_, rfl⟩
      obtain ⟨v, hv⟩ : ∃ v, W * y = v := ⟨_, rfl⟩
      obtain ⟨m, hm⟩ : ∃ m, W * (x + y) = m := ⟨_, rfl⟩
      obtain ⟨wn, hwn⟩ : ∃ wn, W * n = wn := ⟨_, rfl⟩
      obtain ⟨p, hp⟩ : ∃ p, (W - 1) * n % W = p := ⟨_, rfl⟩
      obtain ⟨q, hq⟩ : ∃ q, n % W = q := ⟨_, rfl⟩
      rw [hu, hm] at hmul
      rw [hv] at hmul hdm2
      rw [hu] at hdm1
      rw [hm, hwn] at hmul2
      rw [hwn] at hWn
      rw [hp] at hdm1
      rw [hq] at hdm2 ⊢
      omega
    obtain ⟨x, hx⟩ : ∃ x, (W - 1) * n / W = x := ⟨_, rfl⟩
    obtain ⟨y, hy⟩ : ∃ y, n / W = y := ⟨_, rfl⟩
    rw [hx, hy] at hlo hhi hne ⊢
    omega

theorem block_len_floor_or_ceil (n W t : Nat) (hW : 0 < W) (ht : t < W) :
    block_end n W t - block_start n W t = n / W ∨
    block_end n W t - block_start n W t = ceilDiv n W := by
  rcases Classical.em (t + 1 = W) with hlast | hmid
  · right
    have ht1 : t = W - 1 := by omega
    rw [ht1]
    exact block_len_last n W hW
  · have hmid' : t + 1 < W := by omega
    rcases Classical.em (W ∣ n) with hd | hd
    · left; exact block_len_mid_dvd n W t hW hmid' hd
    · rcases block_len_mid n W t hW hmid' with h | h
      · left; exact h
      · right
        rw [ceilDiv_of_not_dvd n W hW hd]
        exact h

theorem blocks_cover (n W i : Nat) (hW : 0 < W) (hi : i < n) :
    ∃ t, t < W ∧ block_start n W t ≤ i ∧ i < block_end n W t := by
  set P : Nat → Prop := fun t => t * n / W ≤ i with hP
  have hP0 : P 0 := by simp [hP]
  have ht0le : Nat.findGreatest P (W - 1) ≤ W - 1 := Nat.findGreatest_le (W - 1)
  have ht0W : Nat.findGreatest P (W - 1) < W := by omega
  have hPt0 : P (Nat.findGreatest P (W - 1)) :=
    Nat.findGreatest_spec (Nat.zero_le (W - 1)) hP0
  refine ⟨Nat.findGreatest P (W - 1), ht0W, hPt0, ?_⟩
  rw [block_end]
  rcases Classical.em (Nat.findGreatest P (W - 1) + 1 = W) with hlast | hmid
  · rw [if_pos hlast]; exact hi
  · rw [if_neg hmid]
    have hsucc : Nat.findGreatest P (W - 1) + 1 ≤ W - 1 := by omega
    have hnp : ¬ P (Nat.findGreatest P (W - 1) + 1) :=
      Nat.findGreatest_is_greatest (by omega) hsucc
    exact Nat.lt_of_not_le hnp

/-! ## Claim theorems: the block partition -/

/-- C7: for every range with `end <= start`, `parallel_for` submits zero
tasks, does not invoke `f`, leaves the queue unchanged and returns
immediately without blocking (the early return skips both the submission
loop and the `wait()` call). -/
theorem c7_empty_range_is_noop (start stop W : Nat) (h : stop ≤ start) :
    parallel_for start stop W = ([], false) ∧
    ∀ q : List (Nat × Nat), q ++ (parallel_for start stop W).1 = q := by
  have hge : start ≥ stop := h
  constructor
  · rw [parallel_for, if_pos hge]
  · intro q
    rw [parallel_for, if_pos hge]
    simp

/-- Witness for C7 at `start = 5`, `stop = 3`, `W = 2`, queue `[(9, 9)]`. -/
theorem c7_empty_range_is_noop_witness :
    parallel_for 5 3 2 = ([], false) ∧
    [(9, 9)] ++ (parallel_for 5 3 2).1 = [(9, 9)] :=
  ⟨(c7_empty_range_is_noop 5 3 2 (by decide)).1,
   (c7_empty_range_is_noop 5 3 2 (by decide)).2 [(9, 9)]⟩

/-- C8: for every range with `start < end` and worker count `W >= 1`,
`parallel_for` submits exactly `W` tasks, one per block (even when blocks
are empty), and then reaches `wait()`. -/
theorem c8_one_task_per_worker (start stop W : Nat) (h : start < stop)
    (hW : 1 ≤ W) :
    (parallelForBlocks start stop W).length = W ∧
    (parallel_for start stop W).2 = true := by
  refine ⟨parallelForBlocks_length start stop W h, ?_⟩
  rw [parallel_for, if_neg (show ¬ start ≥ stop by omega)]

/-- Witness for C8 at `start = 0`, `stop = 2`, `W = 5` (range smaller than
the worker count, so some blocks are empty; still 5 tasks). -/
theorem c8_one_task_per_worker_witness :
    (parallelForBlocks 0 2 5).length = 5 ∧ (parallel_for 0 2 5).2 = true :=
  c8_one_task_per_worker 0 2 5 (by decide) (by decide)

/-- C9: for every range with `start < end` and `W >= 1`, the blocks are
pairwise disjoint (an earlier block ends no later than a later block starts)
and each block's length is `⌊(end-start)/W⌋` or `⌈(end-start)/W⌉`. -/
theorem c9_blocks_disjoint_and_balanced (start stop W : Nat)
    (h : start < stop) (hW : 1 ≤ W) :
    (∀ t1 t2 b1 b2, t1 < t2 → t2 < W →
        (parallelForBlocks start stop W).get? t1 = some b1 →
        (parallelForBlocks start stop W).get? t2 = some b2 →
        b1.2 ≤ b2.1) ∧
    (∀ t b, t < W → (parallelForBlocks start stop W).get? t = some b →
        b.2 - b.1 = (stop - start) / W ∨
        b.2 - b.1 = ceilDiv (stop - start) W) := by
  constructor
  · intro t1 t2 b1 b2 h12 h2W hb1 hb2
    rw [parallelForBlocks_get start stop W t1 h (by omega)] at hb1
    rw [parallelForBlocks_get start stop W t2 h h2W] at hb2
    have e1 := Option.some.inj hb1
    have e2 := Option.some.inj hb2
    rw [← e1, ← e2]
    exact block_end_le_block_start_of_lt (stop - start) W t1 t2 h12 h2W
  · intro t b htW hb
    rw [parallelForBlocks_get start stop W t h htW] at hb
    have e := Option.some.inj hb
    rw [← e]
    exact block_len_floor_or_ceil (stop - start) W t (by omega) htW

/-- Witness for C9 at `start = 0`, `stop = 10`, `W = 3`: block 0 is
`(0, 3)` of length `3 = ⌈10/3⌉`, and block 0 ends before block 2 starts. -/
theorem c9_blocks_disjoint_and_balanced_witness :
    (3 : Nat) ≤ 6 ∧
    ((3 : Nat) - 0 = 10 / 3 ∨ (3 : Nat) - 0 = ceilDiv 10 3) :=
  ⟨by
    have hd := (c9_blocks_disjoint_and_balanced 0 10 3 (by decide) (by decide)).1
    exact hd 0 2 (0, 3) (6, 10) (by decide) (by decide) (by decide) (by decide),
   (c9_blocks_disjoint_and_balanced 0 10 3 (by decide) (by decide)).2
      0 (0, 3) (by decide) (by decide)⟩

/-- C10: for `0 < start < end` and `W >= 1`, the arguments bound into the
`t`-th submitted task are `t * (end - start) / W` and
`(t + 1) * (end - start) / W` (`end - start` for the last block): offsets
into `[0, end - start)`, never shifted by `start` — so `f` is invoked on
sub-ranges of `[0, end - start)`, a strict subrange of `[0, end)` that is
not `[start, end)`. -/
theorem c10_blocks_are_offsets (start stop W : Nat)
    (h0 : 0 < start) (h : start < stop) (hW : 1 ≤ W) :
    (∀ t, t < W → (parallelForBlocks start stop W).get? t =
        some (t * (stop - start) / W,
          if t + 1 = W then stop - start
          else (t + 1) * (stop - start) / W)) ∧
    (∀ b ∈ parallelForBlocks start stop W, b.2 ≤ stop - start) ∧
    stop - start < stop := by
  refine ⟨?_, ?_, by omega⟩
  · intro t htW
    rw [parallelForBlocks_get start stop W t h htW]
    rfl
  · intro b hb
    rw [parallelForBlocks, parallel_for,
      if_neg (show ¬ start ≥ stop by omega)] at hb
    simp only [List.mem_map, List.mem_range] at hb
    obtain ⟨t, htW, rfl⟩ := hb
    exact block_end_le (block_size start stop) W t htW

/-- Witness for C10 at `start = 2`, `stop = 7`, `W = 2`: task 0 gets block
`(0, 2)` and task 1 gets block `(2, 5)`; the offsets stay below
`7 - 2 = 5 < 7`. -/
theorem c10_blocks_are_offsets_witness :
    (parallelForBlocks 2 7 2).get? 1 =
      some (1 * (7 - 2) / 2,
        if 1 + 1 = 2 then 7 - 2 else (1 + 1) * (7 - 2) / 2) ∧
    7 - 2 < 7 :=
  ⟨(c10_blocks_are_offsets 2 7 2 (by decide) (by decide) (by decide)).1
      1 (by decide),
   (c10_blocks_are_offsets 2 7 2 (by decide) (by decide) (by decide)).2.2⟩

/-- C1 as stated is false on the code: at `start = 1`, `stop = 3`, `W = 1`
the single submitted block is `(0, 2)`.  The index `0` lies inside that
block but outside `[1, 3)`, so the union of blocks is not `[start, end)`,
and the last block's end is `2 = end - start`, not `end = 3`. -/
theorem c1_counterexample :
    parallelForBlocks 1 3 1 = [(0, 2)] ∧
    (0, 2) ∈ parallelForBlocks 1 3 1 ∧
    ((0 : Nat) ≤ 0 ∧ (0 : Nat) < 2) ∧
    ¬ ((1 : Nat) ≤ 0) ∧
    ¬ ((2 : Nat) = 3) := by decide

/-- C1 (amended): for every range with `start < end` and `W >= 1`, the `W`
blocks form an exact partition of the offset range `[0, end - start)` — with
no gap and no overlap — and the last block's end is pinned to `end - start`
(which coincides with the claimed partition of `[start, end)` exactly when
`start = 0`). -/
theorem c1_blocks_partition_offset_range (start stop W : Nat)
    (h : start < stop) (hW : 1 ≤ W) :
    (∀ i, i < stop - start ↔
        ∃ b ∈ parallelForBlocks start stop W, b.1 ≤ i ∧ i < b.2) ∧
    (∀ t1 t2 b1 b2, t1 < t2 → t2 < W →
        (parallelForBlocks start stop W).get? t1 = some b1 →
        (parallelForBlocks start stop W).get? t2 = some b2 →
        b1.2 ≤ b2.1) ∧
    (parallelForBlocks start stop W).get? (W - 1) =
      some (block_start (stop - start) W (W - 1), stop - start) := by
  refine ⟨?_, ?_, ?_⟩
  · intro i
    constructor
    · intro hi
      obtain ⟨t, htW, hts, hte⟩ := blocks_cover (stop - start) W i (by omega) hi
      refine ⟨(block_start (stop - start) W t, block_end (stop - start) W t),
        ?_, hts, hte⟩
      rw [parallelForBlocks, parallel_for,
        if_neg (show ¬ start ≥ stop by omega)]
      simp only [List.mem_map, List.mem_range]
      exact ⟨t, htW, rfl⟩
    · rintro ⟨b, hb, hb1, hb2⟩
      rw [parallelForBlocks, parallel_for,
        if_neg (show ¬ start ≥ stop by omega)] at hb
      simp only [List.mem_map, List.mem_range] at hb
      obtain ⟨t, htW, rfl⟩ := hb
      have := block_end_le (block_size start stop) W t htW
      have hbs : block_size start stop = stop - start := rfl
      omega
  · intro t1 t2 b1 b2 h12 h2W hb1 hb2
    rw [parallelForBlocks_get start stop W t1 h (by omega)] at hb1
    rw [parallelForBlocks_get start stop W t2 h h2W] at hb2
    have e1 := Option.some.inj hb1
    have e2 := Option.some.inj hb2
    rw [← e1, ← e2]
    exact block_end_le_block_start_of_lt (stop - start) W t1 t2 h12 h2W
  · have hpin : block_end (stop - start) W (W - 1) = stop - start := by
      rw [block_end, if_pos (by omega)]
    rw [parallelForBlocks_get start stop W (W - 1) h (by omega), hpin]

/-- Witness for the amended C1 at `start = 1`, `stop = 3`, `W = 1`: the
last (single) block is `(0, 2)`, its end pinned to `3 - 1 = 2`. -/
theorem c1_blocks_partition_offset_range_witness :
    (parallelForBlocks 1 3 1).get? (1 - 1) =
      some (block_start (3 - 1) 1 (1 - 1), 3 - 1) :=
  (c1_blocks_partition_offset_range 1 3 1 (by decide) (by decide)).2.2

/-! ## Claim theorems: FIFO task queue -/

theorem applyQueueOp_preserves (s : QueueState) (op : QueueOp)
    (hs : s.delivered.map Prod.snd ++ s.task_queue = s.enqueued) :
    (applyQueueOp s op).delivered.map Prod.snd ++ (applyQueueOp s op).task_queue
      = (applyQueueOp s op).enqueued := by
  cases op with
  | push t =>
    simp only [applyQueueOp]
    rw [← List.append_assoc, hs]
  | pop w =>
    rcases hq : s.task_queue with _ | ⟨t, rest⟩
    · simp only [applyQueueOp, hq]
      rw [hq] at hs
      simpa using hs
    · simp only [applyQueueOp, hq]
      rw [hq] at hs
      simpa using hs

theorem runQueueOps_invariant (ops : List QueueOp) (s0 : QueueState)
    (hs : s0.delivered.map Prod.snd ++ s0.task_queue = s0.enqueued) :
    (ops.foldl applyQueueOp s0).delivered.map Prod.snd ++
        (ops.foldl applyQueueOp s0).task_queue
      = (ops.foldl applyQueueOp s0).enqueued := by
  induction ops generalizing s0 with
  | nil => exact hs
  | cons op rest ih =>
    exact ih (applyQueueOp s0 op) (applyQueueOp_preserves s0 op hs)

/-- C6: the task queue is FIFO.  For every sequence of push and dequeue
operations, the sequence of delivered tasks followed by the tasks still
queued equals the sequence of enqueued tasks in enqueue order (so removal
order is exactly enqueue order and each dequeue removes one task), and when
the enqueued tasks are distinct, no task is delivered twice — in particular
not to two different workers. -/
theorem c6_fifo_delivery (ops : List QueueOp) :
    ((runQueueOps ops).delivered.map Prod.snd ++ (runQueueOps ops).task_queue
        = (runQueueOps ops).enqueued) ∧
    ((runQueueOps ops).enqueued.Nodup →
        ((runQueueOps ops).delivered.map Prod.snd).Nodup) := by
  have hinv : (runQueueOps ops).delivered.map Prod.snd ++
      (runQueueOps ops).task_queue = (runQueueOps ops).enqueued :=
    runQueueOps_invariant ops
      { task_queue := [], enqueued := [], delivered := [] } rfl
  refine ⟨hinv, fun hnd => ?_⟩
  have hsub : List.Sublist ((runQueueOps ops).delivered.map Prod.snd)
      (runQueueOps ops).enqueued := by
    rw [← hinv]
    exact List.sublist_append_left _ _
  exact List.Nodup.sublist hsub hnd

/-- Witness for C6 on the operation sequence push 1, push 2, pop by worker
0, pop by worker 1: deliveries are `[(0, 1), (1, 2)]`, in enqueue order and
without duplicates. -/
theorem c6_fifo_delivery_witness :
    ((runQueueOps
        [QueueOp.push 1, QueueOp.push 2, QueueOp.pop 0, QueueOp.pop 1]
      ).delivered.map Prod.snd).Nodup :=
  (c6_fifo_delivery
      [QueueOp.push 1, QueueOp.push 2, QueueOp.pop 0, QueueOp.pop 1]).2
    (by decide)

/-! ## Claim theorems: the wait barrier predicate -/

/-- C3: `wait()` returns only in a state where the task queue is empty AND
every busy flag is false.  Both conditions come from one evaluation of the
single predicate `waitPredicate` on one mutex-protected snapshot (the code's
single lambda checked under `_task_queue_mutex`), and the returned snapshot
is the first satisfying one: every earlier wakeup re-evaluated the predicate
and found it false. -/
theorem c3_wait_returns_atomically (obs : List (List Nat × List Bool))
    (s : List Nat × List Bool) (h : cvWait obs = some s) :
    (s.1 = [] ∧ ∀ b ∈ s.2, b = false) ∧
    ∃ pre suf, obs = pre ++ s :: suf ∧
      ∀ s0 ∈ pre, waitPredicate s0.1 s0.2 = false := by
  induction obs with
  | nil => cases h
  | cons s1 rest ih =>
    by_cases hp : waitPredicate s1.1 s1.2 = true
    · rw [cvWait, if_pos hp] at h
      obtain rfl := Option.some.inj h
      simp only [waitPredicate, Bool.and_eq_true, List.isEmpty_iff,
        List.all_eq_true, Bool.not_eq_true'] at hp
      exact ⟨⟨hp.1, hp.2⟩, [], rest, rfl, fun s0 hs0 => by cases hs0⟩
    · rw [cvWait, if_neg hp] at h
      obtain ⟨hmain, pre, suf, heq, hpre⟩ := ih h
      refine ⟨hmain, s1 :: pre, suf, by rw [heq]; rfl, ?_⟩
      intro s0 hs0
      rcases List.mem_cons.mp hs0 with rfl | hs0'
      · exact Bool.eq_false_iff.mpr hp
      · exact hpre s0 hs0'

/-- Witness for C3: a wakeup sequence whose first snapshot (non-empty
queue, a busy worker) fails the predicate and whose second satisfies it. -/
theorem c3_wait_returns_atomically_witness :
    ((([] : List Nat) , [false, false]).1 = [] ∧
      ∀ b ∈ (([] : List Nat), [false, false]).2, b = false) ∧
    ∃ pre suf,
      [(([3], [true]) : List Nat × List Bool), ([], [false, false])] =
        pre ++ (([] : List Nat), [false, false]) :: suf ∧
      ∀ s0 ∈ pre, waitPredicate s0.1 s0.2 = false :=
  c3_wait_returns_atomically [(([3], [true])), ([], [false, false])]
    ([], [false, false]) (by decide)

/-! ## Claim theorems: error handling -/

/-- C4 fails on the code: `infinite_loop` wraps `task()` in no handler, so
with one queued task whose body raises, worker 0 dequeues it and sets its
busy flag, the exception escapes the loop body (second component `true`;
for a C++ thread function this means `std::terminate`), the busy flag is
left `true` and `cv.notify_all()` is never reached — contradicting the
claimed strict isolation and consistent bookkeeping. -/
theorem c4_exception_escapes_loop :
    infinite_loop_iter 0
        { task_queue := [TaskResult.thrown], busy := [false],
          notified := false } =
      ({ task_queue := [], busy := [true], notified := false }, true) := by
  decide

/-- C5 fails on the code: `push` never reads `_running`, so after shutdown
has begun (`running = false`) a pushed task is still appended to the queue
rather than rejected; the resulting queue is non-empty, so the first
conjunct of `wait`'s completion predicate is false and (with every worker
loop exited) stays false — a subsequent `wait()` blocks forever. -/
theorem c5_push_after_shutdown_enqueues :
    push { running := false, task_queue := [] } 7 =
      { running := false, task_queue := [7] } ∧
    (push { running := false, task_queue := [] } 7).task_queue ≠ [] ∧
    waitPredicate
        (push { running := false, task_queue := [] } 7).task_queue [] =
      false := by
  decide

/-! ## Claim theorems: the completion barrier of parallel_for -/

theorem get_set_same {α : Type} (l : List α) (i : Nat) (a b : α)
    (h : l.get? i = some b) : (l.set i a).get? i = some a := by
  rw [List.get?_set_eq, h]
  rfl

theorem get_set_same_of_lt {α : Type} (l : List α) (i : Nat) (a : α)
    (h : i < l.length) : (l.set i a).get? i = some a := by
  rw [List.get?_set_eq, List.get?_eq_get h]
  rfl

theorem countP_set_add {α : Type} (p : α → Bool) (l : List α) :
    ∀ (i : Nat) (a b : α), l.get? i = some b →
      (l.set i a).countP p + (if p b then 1 else 0)
        = l.countP p + (if p a then 1 else 0) := by
  induction l with
  | nil => intro i a b h; cases h
  | cons c tl ih =>
    intro i a b h
    cases i with
    | zero =>
      have hcb : c = b := Option.some.inj h
      subst hcb
      simp only [List.set, List.countP_cons]
      rcases hpa : p a <;> rcases hpc : p c <;> simp [hpa, hpc]
    | succ j =>
      have h' : tl.get? j = some b := h
      have := ih j a b h'
      simp only [List.set, List.countP_cons]
      omega

theorem count_append_single (l : List Nat) (t t' : Nat) :
    (l ++ [t]).count t' = l.count t' + (if t = t' then 1 else 0) := by
  simp [List.count_append, List.count_singleton, beq_iff_eq]

theorem count_cons_head (t : Nat) (rest : List Nat) (t' : Nat) :
    (t :: rest).count t' = rest.count t' + (if t = t' then 1 else 0) := by
  simp [List.count_cons, beq_iff_eq]

theorem holdsTask_holding (t t' : Nat) :
    (if holdsTask t' (Phase.holding t) = true then 1 else 0)
      = (if t = t' then 1 else 0) := by
  simp [holdsTask, beq_iff_eq]

theorem holdsTask_atTop (t' : Nat) :
    (if holdsTask t' Phase.atTop = true then 1 else 0) = 0 := rfl

theorem holdsTask_doneTask (t t' : Nat) :
    (if holdsTask t' (Phase.doneTask t) = true then 1 else 0) = 0 := rfl

theorem pool_inv_step (s s' : PoolState) (hstep : Step s s')
    (ih : PoolInv s) : PoolInv s' := by
  obtain ⟨ihlen, ihbusy, ihcount⟩ := ih
  cases hstep with
  | push t =>
    refine ⟨ihlen, ihbusy, ?_⟩
    intro t'
    have hcnt := ihcount t'
    dsimp only
    simp only [count_append_single]
    by_cases htt : t = t'
    · simp only [if_pos htt]
      omega
    · simp only [if_neg htt]
      omega
  | dequeue w t rest hw hq =>
    have hwlt : w < s.workers.length := by
      obtain ⟨hlt, _⟩ := List.get?_eq_some.mp hw
      exact hlt
    have hblt : w < s.busy.length := by omega
    refine ⟨by simp only [List.length_set]; omega, ?_, ?_⟩
    · intro w' ph' hw' hne
      by_cases hww : w' = w
      · subst hww
        exact get_set_same_of_lt s.busy w' true hblt
      · simp only at hw' ⊢
        rw [List.get?_set_ne _ _ (fun he => hww he.symm)] at hw'
        rw [List.get?_set_ne _ _ (fun he => hww he.symm)]
        exact ihbusy w' ph' hw' hne
    · intro t'
      have hcp := countP_set_add (holdsTask t') s.workers w
        (Phase.holding t) Phase.atTop hw
      have hcnt := ihcount t'
      rw [hq] at hcnt
      rw [count_cons_head] at hcnt
      rw [holdsTask_holding, holdsTask_atTop] at hcp
      dsimp only
      by_cases htt : t = t'
      · simp only [if_pos htt] at hcp hcnt
        omega
      · simp only [if_neg htt] at hcp hcnt
        omega
  | idle w hw hq =>
    refine ⟨by simp only [List.length_set]; omega, ?_, ihcount⟩
    intro w' ph' hw' hne
    by_cases hww : w' = w
    · subst hww
      simp only at hw'
      rw [hw'] at hw
      exact absurd (Option.some.inj hw) hne
    · simp only at hw' ⊢
      rw [List.get?_set_ne _ _ (fun he => hww he.symm)]
      exact ihbusy w' ph' hw' hne
  | run w t hw =>
    refine ⟨by simp only [List.length_set]; omega, ?_, ?_⟩
    · intro w' ph' hw' hne
      by_cases hww : w' = w
      · subst hww
        exact ihbusy w' (Phase.holding t) hw (by simp)
      · simp only at hw' ⊢
        rw [List.get?_set_ne _ _ (fun he => hww he.symm)] at hw'
        exact ihbusy w' ph' hw' hne
    · intro t'
      have hcp := countP_set_add (holdsTask t') s.workers w
        (Phase.doneTask t) (Phase.holding t) hw
      have hcnt := ihcount t'
      rw [holdsTask_holding, holdsTask_doneTask] at hcp
      dsimp only
      simp only [count_append_single]
      by_cases htt : t = t'
      · simp only [if_pos htt] at hcp ⊢
        omega
      · simp only [if_neg htt] at hcp ⊢
        omega
  | clearBusy w t hw =>
    refine ⟨by simp only [List.length_set]; omega, ?_, ?_⟩
    · intro w' ph' hw' hne
      by_cases hww : w' = w
      · subst hww
        simp only at hw'
        rw [get_set_same s.workers w' Phase.atTop (Phase.doneTask t) hw] at hw'
        exact absurd (Option.some.inj hw').symm hne
      · simp only at hw' ⊢
        rw [List.get?_set_ne _ _ (fun he => hww he.symm)] at hw'
        rw [List.get?_set_ne _ _ (fun he => hww he.symm)]
        exact ihbusy w' ph' hw' hne
    · intro t'
      have hcp := countP_set_add (holdsTask t') s.workers w
        Phase.atTop (Phase.doneTask t) hw
      have hcnt := ihcount t'
      rw [holdsTask_doneTask, holdsTask_atTop] at hcp
      dsimp only
      omega

theorem pool_inv (n : Nat) (s : PoolState) (h : Reachable n s) :
    PoolInv s := by
  induction h with
  | init =>
    refine ⟨by simp [initPool], ?_, ?_⟩
    · intro w ph hw hne
      exact absurd (List.eq_of_mem_replicate (List.get?_mem hw)) hne
    · intro t
      simp only [initPool, List.count_nil]
      have hz : (List.replicate n Phase.atTop).countP (holdsTask t) = 0 :=
        List.countP_eq_zero.mpr (fun ph hmem => by
          rw [List.eq_of_mem_replicate hmem]
          simp [holdsTask])
      omega
  | step hr hstep ih =>
    exact pool_inv_step _ _ hstep ih

/-- C2: `parallel_for` with a non-empty range submits one task per block
(task id `t` standing for the task of block `t`, so the pushed log is
`List.range W`) and then blocks in `wait()`; `wait` returns only in a state
satisfying its predicate (empty queue, no busy worker).  In every reachable
pool state satisfying that predicate, each submitted block task has been
executed exactly once — so when `parallel_for` returns, `f` has run exactly
once per block and all completed executions (hence their side effects) are
in the caller's past. -/
theorem c2_parallel_for_exactly_once (n W : Nat) (s : PoolState)
    (hr : Reachable n s) (hp : s.pushed = List.range W)
    (hwp : waitPredicate s.task_queue s.busy = true) :
    ∀ t, t < W → List.count t s.executed = 1 := by
  obtain ⟨hlen, hbusy, hcount⟩ := pool_inv n s hr
  simp only [waitPredicate, Bool.and_eq_true, List.isEmpty_iff,
    List.all_eq_true, Bool.not_eq_true'] at hwp
  obtain ⟨hq, hball⟩ := hwp
  have hwork : ∀ ph ∈ s.workers, ph = Phase.atTop := by
    intro ph hmem
    by_contra hne
    obtain ⟨w, hw⟩ := List.mem_iff_get?.mp hmem
    have hbt : s.busy.get? w = some true := hbusy w ph hw hne
    have hT : (true : Bool) ∈ s.busy := List.get?_mem hbt
    have := hball true hT
    simp at this
  intro t htW
  have hcnt := hcount t
  have hcp : s.workers.countP (holdsTask t) = 0 :=
    List.countP_eq_zero.mpr (fun ph hmem => by
      rw [hwork ph hmem]
      simp [holdsTask])
  have hcr : List.count t (List.range W) = 1 :=
    List.count_eq_one_of_mem (List.nodup_range W) (List.mem_range.mpr htW)
  rw [hp, hcr, hq] at hcnt
  simp only [List.count_nil] at hcnt
  omega

/-- Witness for C2 with one worker and one block task: the trace
construct-pool, push task 0, dequeue, execute, clear busy ends in a state
satisfying the wait predicate, with task 0 executed exactly once. -/
theorem c2_parallel_for_exactly_once_witness :
    List.count 0
      ({ task_queue := [], workers := [Phase.atTop], busy := [false],
         executed := [0], pushed := [0] } : PoolState).executed = 1 := by
  have h0 : Reachable 1 (initPool 1) := Reachable.init
  have h1 := Reachable.step h0 (Step.push (initPool 1) 0)
  have h2 := Reachable.step h1 (Step.dequeue _ 0 0 [] rfl rfl)
  have h3 := Reachable.step h2 (Step.run _ 0 0 rfl)
  have h4 := Reachable.step h3 (Step.clearBusy _ 0 0 rfl)
  exact c2_parallel_for_exactly_once 1 1
    { task_queue := [], workers := [Phase.atTop], busy := [false],
      executed := [0], pushed := [0] }
    h4 rfl rfl 0 (by decide)

end Redpoule
